import Mathlib

/-!
Verification development for the concept-URI module of the conceptnet5
repository (`conceptnet5/nodes.py`).

The module under verification builds canonical concept URIs from a language
code, a main text and optional qualifier segments, extracts the language back
out of such URIs, converts Wikipedia-style topics into concept URIs, and
validates concept texts.

Strings are modelled by Lean `String` (whose `data` field is a `List Char`);
Python lists by Lean lists; Python `None` by `Option.none`; a raised
exception by `Except.error`.

Collaborators imported by `nodes.py` from other parts of the repository
(`conceptnet5.uri`, `conceptnet5.language.token_utils`,
`conceptnet5.language.english`) are not part of the given sources; they are
modelled from the specification's contracts for them and are marked
`Modelled from the spec:` in their doc comments.
-/

/-! ## Character-level groundwork -/

theorem char_toNat_ofNat {m : Nat} (h : m.isValidChar) : (Char.ofNat m).toNat = m := by
  rw [Char.ofNat, dif_pos h]; rfl

/-- `Char.toLower` either leaves a character unchanged (when it is not an
ASCII capital letter) or shifts an ASCII capital by 32. -/
theorem toLower_cases (c : Char) :
    (Char.toLower c = c ∧ ¬(65 ≤ c.toNat ∧ c.toNat ≤ 90)) ∨
    ((Char.toLower c).toNat = c.toNat + 32 ∧ 65 ≤ c.toNat ∧ c.toNat ≤ 90) := by
  unfold Char.toLower
  by_cases h : c.toNat ≥ 65 ∧ c.toNat ≤ 90
  · right
    rw [if_pos h]
    refine ⟨?_, h.1, h.2⟩
    apply char_toNat_ofNat
    left
    omega
  · left
    rw [if_neg h]
    exact ⟨rfl, h⟩

theorem isLower_iff (d : Char) : d.isLower = true ↔ 97 ≤ d.toNat ∧ d.toNat ≤ 122 := by
  simp [Char.isLower, UInt32.le_def, BitVec.le_def, Char.toNat, UInt32.toNat]

theorem isUpper_iff (d : Char) : d.isUpper = true ↔ 65 ≤ d.toNat ∧ d.toNat ≤ 90 := by
  simp [Char.isUpper, UInt32.le_def, BitVec.le_def, Char.toNat, UInt32.toNat]

theorem isDigit_iff (d : Char) : d.isDigit = true ↔ 48 ≤ d.toNat ∧ d.toNat ≤ 57 := by
  simp [Char.isDigit, UInt32.le_def, BitVec.le_def, Char.toNat, UInt32.toNat]

theorem isAlphanum_iff (d : Char) :
    d.isAlphanum = true ↔
      (65 ≤ d.toNat ∧ d.toNat ≤ 90) ∨ (97 ≤ d.toNat ∧ d.toNat ≤ 122) ∨
      (48 ≤ d.toNat ∧ d.toNat ≤ 57) := by
  simp [Char.isAlphanum, Char.isAlpha, isUpper_iff, isLower_iff, isDigit_iff]
  tauto

/-- Lowercasing is idempotent. -/
theorem toLower_toLower (c : Char) : c.toLower.toLower = c.toLower := by
  rcases toLower_cases c with ⟨h, _⟩ | ⟨h, h1, h2⟩
  · simp [h]
  · rcases toLower_cases c.toLower with ⟨h', _⟩ | ⟨_, h1', h2'⟩
    · exact h'
    · omega

/-- Lowercasing preserves the alphanumeric character class. -/
theorem isAlphanum_toLower (c : Char) (h : c.isAlphanum = true) :
    c.toLower.isAlphanum = true := by
  rcases toLower_cases c with ⟨heq, _⟩ | ⟨heq, h1, h2⟩
  · rwa [heq]
  · rw [isAlphanum_iff]
    right; left
    omega

/-! ## Tokenizer and English filter (spec-modelled collaborators) -/

/-- Modelled from the spec: word characters for the external tokenizer, which
splits "on whitespace/punctuation boundaries" while "preserving combining
diacritics"; ASCII letters and digits and every non-ASCII character are word
characters, and ASCII whitespace and punctuation are separators. -/
def isWordChar (c : Char) : Bool := c.isAlphanum || decide (128 ≤ c.toNat)

/-- Word characters are stable under lowercasing. -/
theorem isWordChar_toLower (c : Char) (h : isWordChar c = true) :
    isWordChar c.toLower = true := by
  unfold isWordChar at h ⊢
  rcases Bool.or_eq_true_iff.mp h with h1 | h1
  · exact Bool.or_eq_true_iff.mpr (Or.inl (isAlphanum_toLower c h1))
  · rcases toLower_cases c with ⟨heq, _⟩ | ⟨_, _, h90⟩
    · rw [heq]; exact h
    · simp only [decide_eq_true_eq] at h1
      omega

/-- Splits a character list into its maximal runs of characters satisfying
`p`, dropping the separators.  `cur` accumulates the current run in reverse. -/
def splitRunsAux (p : Char → Bool) : List Char → List Char → List (List Char)
  | [], cur => if cur = [] then [] else [cur.reverse]
  | c :: cs, cur =>
    if p c then splitRunsAux p cs (c :: cur)
    else if cur = [] then splitRunsAux p cs []
    else cur.reverse :: splitRunsAux p cs []

/-- Modelled from the spec: the external tokenizer collaborator
(`simple_tokenize` from `conceptnet5.language.token_utils`), "a tokenizer
producing a finite ordered sequence of lowercase word tokens from arbitrary
text, ... splitting on whitespace/punctuation boundaries": the maximal runs
of word characters, each lowercased. -/
def simple_tokenize (text : String) : List String :=
  (splitRunsAux isWordChar text.data []).map (fun run => (run.map Char.toLower).asString)

/-- Modelled from the spec: the English-specific token filter collaborator
(`english_filter` from `conceptnet5.language.english`), which "removes
closed-class function words and normalizes some verb forms".  Pinned by the
doctests in `nodes.py`: stopwords `the`/`a`/`an` are removed
(`'this is a test'` standardizes to `'this_is_test'`, `'a big dog'` to
`'big_dog'`), a leading infinitive `to` is dropped (`'to go'` standardizes to
`'go'`), and when every token would be removed the original tokens are kept
(best-effort principle of the spec's error-handling design). -/
def english_filter (tokens : List String) : List String :=
  let non_stopwords := tokens.filter (fun t => !(t = "the" || t = "a" || t = "an"))
  let dropped := non_stopwords.dropWhile (fun t => t = "to")
  if dropped = [] then tokens else dropped

/-- The character replacement performed by Python's `.replace('_', ' ')`
(used in `standardize_text`) and `.replace('_', ' ')` in `topic_to_concept`. -/
def uscoreSpace (c : Char) : Char := if c = '_' then ' ' else c

/-- Python's `'_'.join(tokens)`. -/
def joinUnderscore : List String → String
  | [] => ""
  | [t] => t
  | t :: ts => t ++ "_" ++ joinUnderscore ts

/-- Embedding of `standardize_text(text, token_filter)` from `nodes.py`:
tokenize the text with underscores treated as spaces, optionally apply the
token filter, and join the tokens with underscores. -/
def standardize_text (text : String) (token_filter : Option (List String → List String)) :
    String :=
  let tokens := simple_tokenize (text.data.map uscoreSpace).asString
  let filtered := match token_filter with
    | some f => f tokens
    | none => tokens
  joinUnderscore filtered

/-! ## URI utility (spec-modelled collaborator `conceptnet5.uri`) -/

/-- Intercalates `'/'` between the pieces. -/
def interSlash : List String → String
  | [] => ""
  | [t] => t
  | t :: ts => t ++ "/" ++ interSlash ts

/-- Modelled from the spec: the URI utility's `join(segments...)`, producing
"a path-shaped identifier ... each as one path component": a leading slash
followed by the slash-separated components. -/
def join_uri (pieces : List String) : String := "/" ++ interSlash pieces

/-- Modelled from the spec: `concept_uri(lang, text, *more)` from
`conceptnet5.uri` assembles "the literal concept marker, canonical language,
and the standardized segments" into one path. -/
def concept_uri (lang : String) (text : String) (more : List String) : String :=
  join_uri ("c" :: lang :: text :: more)

/-- Splits a character list at every `'/'`; separators are dropped and empty
segments are kept, like Python's `str.split('/')`. -/
def splitSlash : List Char → List (List Char)
  | [] => [[]]
  | c :: cs =>
    if c = '/' then [] :: splitSlash cs
    else
      match splitSlash cs with
      | [] => [[c]]
      | g :: gs => (c :: g) :: gs

/-- Modelled from the spec: the URI utility's `split(uri) -> segments`
(`split_uri` from `conceptnet5.uri`): strip leading slashes, then split the
rest on `'/'`; an all-slash or empty URI has no segments. -/
def split_uri (uri : String) : List String :=
  let stripped := uri.data.dropWhile (fun c => c = '/')
  if stripped = [] then [] else (splitSlash stripped).map List.asString

/-- Python's `uri.startswith(pre)`. -/
def uriStartsWith (pre uri : String) : Bool := pre.data.isPrefixOf uri.data

/-- Splits a character list on the commas that sit at bracket depth zero
(`'['` increases the depth, `']'` decreases it), so that sub-URIs of nested
compounds are not split apart.  `cur` accumulates the current chunk in
reverse.  The result is never empty. -/
def splitTopComma : List Char → Nat → List Char → List (List Char)
  | [], _, cur => [cur.reverse]
  | c :: cs, depth, cur =>
    if c = ',' ∧ depth = 0 then cur.reverse :: splitTopComma cs 0 []
    else if c = '[' then splitTopComma cs (depth + 1) (c :: cur)
    else if c = ']' then splitTopComma cs (depth - 1) (c :: cur)
    else splitTopComma cs depth (c :: cur)

/-- Modelled from the spec: the compound form of an assertion identifier is
`/{op}/[{sub-uri},{sub-uri},...]` ("a compound identifier referencing two or
more concept identifiers"); its arguments are the bracket contents split on
top-level commas. -/
def parse_compound_args (op : String) (uri : String) : List String :=
  let afterBracket := uri.data.drop (op.data.length + 3)
  let inner := if afterBracket.getLast? = some ']' then afterBracket.dropLast else afterBracket
  (splitTopComma inner 0 []).map List.asString

/-- Modelled from the spec: `parse_possible_compound_uri(op, uri)` from
`conceptnet5.uri`, the URI utility's `parse_compound`: when the URI has the
compound shape `/{op}/[...]` return the list of sub-URIs it contains,
otherwise return a list containing just the URI itself. -/
def parse_possible_compound_uri (op : String) (uri : String) : List String :=
  if uriStartsWith ("/" ++ op ++ "/[") uri then parse_compound_args op uri
  else [uri]

/-! ## Embedding of `nodes.py` -/

/-- The `LCODE_ALIASES` table from `nodes.py`: language codes merged or
redirected to another language code. -/
def LCODE_ALIASES : List (String × String) :=
  [("cmn", "zh"), ("yue", "zh"), ("zh_tw", "zh"), ("zh_cn", "zh"),
   ("zh-tw", "zh"), ("zh-cn", "zh"),
   ("nds-de", "nds"), ("nds-nl", "nds"),
   ("zsm", "ms"), ("id", "ms"),
   ("nn", "no"), ("nb", "no"),
   ("bs", "sh"), ("hr", "sh"), ("sr", "sh"), ("hbs", "sh"),
   ("sr-latn", "sh"), ("sr-cyrl", "sh"),
   ("arb", "ar"), ("arz", "ar"), ("ary", "ar"),
   ("ckb", "ku"), ("mvf", "mn"), ("tl", "fil"), ("vro", "et"),
   ("sgs", "lt"), ("ciw", "oj"), ("xal", "xwo"), ("ffm", "ff")]

/-- Python's `lang.lower()` (ASCII lowering, which covers every code in the
table and every input exercised here). -/
def lowerStr (s : String) : String := (s.data.map Char.toLower).asString

/-- The canonicalization steps of `standardized_concept_uri` (lines 542-544
of `nodes.py`): `lang = lang.lower()`, then
`if lang in LCODE_ALIASES: lang = LCODE_ALIASES[lang]`. -/
def canonical_lcode (lang : String) : String :=
  let l := lowerStr lang
  match LCODE_ALIASES.lookup l with
  | some replacement => replacement
  | none => l

/-- Embedding of `standardized_concept_name(lang, text)` from `nodes.py`: it
unconditionally raises `NotImplementedError`. -/
def standardized_concept_name (_lang : String) (_text : String) : Except String String :=
  Except.error
    "standardized_concept_name has been removed. Use standardize_text instead."

/-- `normalized_concept_name = standardized_concept_name` in `nodes.py`. -/
def normalized_concept_name : String → String → Except String String :=
  standardized_concept_name

/-- Embedding of `standardized_concept_uri(lang, text, *more)` from
`nodes.py`.  Note the order of operations in the source: the token filter is
chosen by comparing the *raw* `lang` against `'en'` (line 538), and only
afterwards is `lang` lowercased and resolved through `LCODE_ALIASES`
(lines 542-544).  `more` models the varargs, with `none` for Python `None`. -/
def standardized_concept_uri (lang : String) (text : String)
    (more : List (Option String)) : String :=
  let token_filter : Option (List String → List String) :=
    if lang = "en" then some english_filter else none
  let lang2 := canonical_lcode lang
  let norm_text := standardize_text text token_filter
  let more_text := (more.filterMap id).map (fun item => standardize_text item token_filter)
  concept_uri lang2 norm_text more_text

/-- One step of `get_uri_language`, fuelled so that the unbounded recursion
of the Python source can be modelled: the result is `none` when the fuel runs
out, `some r` when the source returns, with `r = none` for Python `None`.
`(parse_possible_compound_uri "a" uri).headD uri` models the Python indexing
`[0]`; the list is provably never empty (`parse_possible_compound_ne_nil`).
On the `/c/` branch, `(split_uri uri).get? 1` models `split_uri(uri)[1]`; a
URI starting with `/c/` always has at least two segments
(`split_uri_c_length`), so the out-of-range case never arises there. -/
def get_uri_language_fuel : Nat → String → Option (Option String)
  | 0, _ => none
  | fuel + 1, uri =>
    if uriStartsWith "/a/" uri then
      get_uri_language_fuel fuel ((parse_possible_compound_uri "a" uri).headD uri)
    else if uriStartsWith "/c/" uri then
      some ((split_uri uri).get? 1)
    else
      some none

/-- Embedding of `get_uri_language(uri)` from `nodes.py`.  Fuel
`uri.data.length + 1` is always sufficient: every genuine compound sub-URI is
strictly shorter than the URI containing it, and when the parse returns the
URI itself the recursion repeats that URI forever (so the result is `none`
for every fuel; see `get_uri_language_fuel_stable`). -/
def get_uri_language (uri : String) : Option (Option String) :=
  get_uri_language_fuel (uri.data.length + 1) uri

/-- The prefix match of `re.match(r'([^(]+) \(([^)]+)\)', topic)` in
`topic_to_concept`: one or more non-`'('` characters (group 1), a space, an
opening parenthesis, one or more non-`')'` characters (group 2), a closing
parenthesis, anchored at the start with trailing characters ignored. -/
def matchTopic (cs : List Char) : Option (List Char × List Char) :=
  let pre := cs.takeWhile (fun c => c ≠ '(')
  let rest := cs.dropWhile (fun c => c ≠ '(')
  if rest = [] then none
  else if pre.getLast? = some ' ' ∧ pre.dropLast ≠ [] then
    let afterParen := rest.tail
    let g2 := afterParen.takeWhile (fun c => c ≠ ')')
    let rest2 := afterParen.dropWhile (fun c => c ≠ ')')
    if rest2 = [] ∨ g2 = [] then none
    else some (pre.dropLast, g2)
  else none

/-- Embedding of `topic_to_concept(language, topic)` from `nodes.py`:
underscores become spaces, then the disambiguation pattern is matched; on a
match the parenthesized text becomes a `wp`-sourced noun disambiguation,
otherwise the whole topic is the main text. -/
def topic_to_concept (language : String) (topic : String) : String :=
  let t := topic.data.map uscoreSpace
  match matchTopic t with
  | none => standardized_concept_uri language t.asString []
  | some (g1, g2) =>
    standardized_concept_uri language g1.asString [some "n", some "wp", some g2.asString]

/-- Embedding of `valid_concept_name(text)` from `nodes.py`:
`bool(standardize_text(text))`, i.e. whether standardizing with no filter
gives a non-empty string. -/
def valid_concept_name (text : String) : Bool :=
  standardize_text text none != ""

/-! ## Basic facts about the language-code table -/

theorem lookup_mem {ps : List (String × String)} {k v : String}
    (h : List.lookup k ps = some v) : (k, v) ∈ ps := by
  induction ps with
  | nil => simp [List.lookup] at h
  | cons p rest ih =>
    obtain ⟨a, b⟩ := p
    rw [List.lookup] at h
    by_cases hk : (k == a) = true
    · rw [hk] at h
      simp only [Option.some.injEq] at h
      have hka : k = a := by simpa using hk
      subst hka
      subst h
      exact List.mem_cons_self _ _
    · have hk' : (k == a) = false := by simpa using hk
      rw [hk'] at h
      exact List.mem_cons_of_mem _ (ih h)

theorem data_asString (l : List Char) : (List.asString l).data = l := rfl

/-- Lowercasing a string is idempotent. -/
theorem lowerStr_idem (s : String) : lowerStr (lowerStr s) = lowerStr s := by
  unfold lowerStr
  rw [data_asString, List.map_map]
  simp [Function.comp, toLower_toLower]

/-- Every value of `LCODE_ALIASES` is already lowercase and is not itself a
key of the table. -/
theorem lcode_values_settled :
    ∀ p ∈ LCODE_ALIASES, lowerStr p.2 = p.2 ∧ List.lookup p.2 LCODE_ALIASES = none := by
  decide

/-- C4: language-code canonicalization (lowercase, then one replacement
through `LCODE_ALIASES`) is idempotent: canonicalizing an already-canonical
code returns it unchanged; the alias table needs at most one hop and has no
cycles. -/
theorem claim_C4 (code : String) :
    canonical_lcode (canonical_lcode code) = canonical_lcode code := by
  have hchar : ∀ s, canonical_lcode s =
      match LCODE_ALIASES.lookup (lowerStr s) with
      | some replacement => replacement
      | none => lowerStr s := fun s => rfl
  cases h : LCODE_ALIASES.lookup (lowerStr code) with
  | none =>
    rw [hchar code, h]
    rw [hchar (lowerStr code), lowerStr_idem, h]
  | some v =>
    obtain ⟨h1, h2⟩ := lcode_values_settled _ (lookup_mem h)
    have h1' : lowerStr v = v := h1
    have h2' : List.lookup v LCODE_ALIASES = none := h2
    rw [hchar code, h]
    rw [hchar v, h1', h2']

/-- C10: the deprecated entry point `standardized_concept_name` (and its
alias `normalized_concept_name`) fails unconditionally for every input, with
a message directing the caller to `standardize_text`; it never returns a
value. -/
theorem claim_C10 (lang text : String) :
    standardized_concept_name lang text =
      Except.error
        "standardized_concept_name has been removed. Use standardize_text instead."
    ∧ normalized_concept_name lang text =
      Except.error
        "standardized_concept_name has been removed. Use standardize_text instead." :=
  ⟨rfl, rfl⟩

/-- C1: the code selects the English token filter by comparing the *raw*
language code with `'en'` before canonicalizing, so the canonically-equal
codes `'EN'` and `'en'` produce different URIs for the same text: `'EN'`
skips the English stopword filter. -/
theorem claim_C1 :
    standardized_concept_uri "EN" "this is a test" [] = "/c/en/this_is_a_test"
    ∧ standardized_concept_uri "en" "this is a test" [] = "/c/en/this_is_test"
    ∧ standardized_concept_uri "EN" "this is a test" []
        ≠ standardized_concept_uri "en" "this is a test" [] := by
  refine ⟨by decide, by decide, by decide⟩

/-- C7: `valid_concept_name` holds exactly when standardizing with no filter
is non-empty; false on `','`, `'/'`, `' '`, `'_'`, true on `'word'` and the
English stopword `'the'`. -/
theorem claim_C7 :
    (∀ text : String, valid_concept_name text = true ↔ standardize_text text none ≠ "")
    ∧ valid_concept_name "," = false ∧ valid_concept_name "/" = false
    ∧ valid_concept_name " " = false ∧ valid_concept_name "_" = false
    ∧ valid_concept_name "word" = true ∧ valid_concept_name "the" = true := by
  refine ⟨?_, by decide, by decide, by decide, by decide, by decide, by decide⟩
  intro t
  unfold valid_concept_name
  simp [bne_iff_ne]

/-! ## Path segments of built URIs -/

theorem data_append (s t : String) : (s ++ t).data = s.data ++ t.data := by
  cases s; cases t; rfl

theorem splitSlash_ne_nil (cs : List Char) : splitSlash cs ≠ [] := by
  induction cs with
  | nil => simp [splitSlash]
  | cons c cs ih =>
    rw [splitSlash]
    by_cases h : c = '/'
    · simp [h]
    · rw [if_neg h]
      cases hs : splitSlash cs with
      | nil => simp
      | cons g gs => simp

/-- Consuming a slash-free prefix segment. -/
theorem splitSlash_append (A rest : List Char) (h : ∀ c ∈ A, c ≠ '/') :
    splitSlash (A ++ '/' :: rest) = A :: splitSlash rest := by
  induction A with
  | nil => simp [splitSlash]
  | cons c A ih =>
    have hc : c ≠ '/' := h c (List.mem_cons_self c A)
    have hA : ∀ x ∈ A, x ≠ '/' := fun x hx => h x (List.mem_cons_of_mem c hx)
    rw [List.cons_append, splitSlash, if_neg hc, ih hA]

/-- A slash-free list is a single segment. -/
theorem splitSlash_single (A : List Char) (h : ∀ c ∈ A, c ≠ '/') :
    splitSlash A = [A] := by
  induction A with
  | nil => rfl
  | cons c A ih =>
    have hc : c ≠ '/' := h c (List.mem_cons_self c A)
    have hA : ∀ x ∈ A, x ≠ '/' := fun x hx => h x (List.mem_cons_of_mem c hx)
    rw [splitSlash, if_neg hc, ih hA]

/-- Splitting the slash-joined form of slash-free pieces recovers the
pieces. -/
theorem splitSlash_interSlash (ps : List String) (hne : ps ≠ [])
    (h : ∀ s ∈ ps, ∀ c ∈ s.data, c ≠ '/') :
    splitSlash (interSlash ps).data = ps.map String.data := by
  induction ps with
  | nil => exact absurd rfl hne
  | cons p ps ih =>
    cases ps with
    | nil =>
      rw [show interSlash [p] = p from rfl]
      rw [splitSlash_single p.data (h p (List.mem_cons_self p []))]
      rfl
    | cons q qs =>
      rw [show interSlash (p :: q :: qs) = p ++ "/" ++ interSlash (q :: qs) from rfl]
      rw [data_append, data_append]
      rw [show ("/" : String).data = ['/'] from rfl, List.append_assoc,
        List.singleton_append]
      rw [splitSlash_append p.data _ (h p (List.mem_cons_self p _))]
      rw [ih (by simp) (fun s hs => h s (List.mem_cons_of_mem p hs))]
      rfl

/-! ## Characters of standardized text -/

theorem splitRunsAux_runs (p : Char → Bool) :
    ∀ cs cur, (∀ c ∈ cur, p c = true) →
    ∀ r ∈ splitRunsAux p cs cur, r ≠ [] ∧ ∀ c ∈ r, p c = true := by
  intro cs
  induction cs with
  | nil =>
    intro cur hcur r hr
    rw [splitRunsAux] at hr
    by_cases h : cur = []
    · simp [h] at hr
    · rw [if_neg h] at hr
      simp only [List.mem_singleton] at hr
      subst hr
      exact ⟨by simpa using h, fun c hc => hcur c (List.mem_reverse.mp hc)⟩
  | cons c cs ih =>
    intro cur hcur r hr
    rw [splitRunsAux] at hr
    by_cases hp : p c = true
    · rw [if_pos hp] at hr
      refine ih (c :: cur) ?_ r hr
      intro x hx
      rcases List.mem_cons.mp hx with h | h
      · subst h; exact hp
      · exact hcur x h
    · rw [if_neg hp] at hr
      by_cases hc : cur = []
      · rw [if_pos hc] at hr
        exact ih [] (by simp) r hr
      · rw [if_neg hc] at hr
        rcases List.mem_cons.mp hr with h | h
        · subst h
          exact ⟨by simpa using hc, fun x hx => hcur x (List.mem_reverse.mp hx)⟩
        · exact ih [] (by simp) r h

/-- Every token of `simple_tokenize` is a non-empty string of lowercased
word characters. -/
theorem simple_tokenize_tokens (s : String) :
    ∀ t ∈ simple_tokenize s, t.data ≠ [] ∧
      ∀ c ∈ t.data, isWordChar c = true ∧ c.toLower = c := by
  intro t ht
  unfold simple_tokenize at ht
  rcases List.mem_map.mp ht with ⟨run, hrun, hteq⟩
  obtain ⟨hne, hchars⟩ := splitRunsAux_runs isWordChar s.data [] (by simp) run hrun
  subst hteq
  constructor
  · rw [data_asString]
    simpa using hne
  · rw [data_asString]
    intro c hc
    rcases List.mem_map.mp hc with ⟨d, hd, hdc⟩
    subst hdc
    exact ⟨isWordChar_toLower d (hchars d hd), toLower_toLower d⟩

/-- The English filter only ever returns tokens of its input. -/
theorem english_filter_subset (ts : List String) :
    ∀ t ∈ english_filter ts, t ∈ ts := by
  intro t ht
  unfold english_filter at ht
  by_cases h :
      (ts.filter (fun t => !(t = "the" || t = "a" || t = "an"))).dropWhile
        (fun t => t = "to") = []
  · rw [if_pos h] at ht; exact ht
  · rw [if_neg h] at ht
    exact List.mem_filter.mp (List.dropWhile_subset _ ht) |>.1

theorem joinUnderscore_chars :
    ∀ ts : List String, ∀ c ∈ (joinUnderscore ts).data,
      c = '_' ∨ ∃ t ∈ ts, c ∈ t.data := by
  intro ts
  induction ts with
  | nil => simp [joinUnderscore]
  | cons t ts ih =>
    intro c hc
    cases ts with
    | nil =>
      rw [show joinUnderscore [t] = t from rfl] at hc
      exact Or.inr ⟨t, List.mem_cons_self t [], hc⟩
    | cons q qs =>
      rw [show joinUnderscore (t :: q :: qs) = t ++ "_" ++ joinUnderscore (q :: qs) from rfl,
        data_append, data_append] at hc
      rcases List.mem_append.mp hc with h | h
      · rcases List.mem_append.mp h with h' | h'
        · exact Or.inr ⟨t, List.mem_cons_self t _, h'⟩
        · left
          simpa using h'
      · rcases ih c h with h' | ⟨u, hu, hcu⟩
        · exact Or.inl h'
        · exact Or.inr ⟨u, List.mem_cons_of_mem t hu, hcu⟩

/-- Every character of a standardized text (with no filter or the English
filter) is an underscore or a lowercased word character. -/
theorem standardize_text_chars (text : String)
    (tf : Option (List String → List String))
    (htf : tf = none ∨ tf = some english_filter) :
    ∀ c ∈ (standardize_text text tf).data,
      c = '_' ∨ (isWordChar c = true ∧ c.toLower = c) := by
  intro c hc
  unfold standardize_text at hc
  set tokens := simple_tokenize (text.data.map uscoreSpace).asString with htokens
  have htok : ∀ t ∈ tokens, t.data ≠ [] ∧
      ∀ x ∈ t.data, isWordChar x = true ∧ x.toLower = x :=
    simple_tokenize_tokens _
  rcases htf with h | h
  · rw [h] at hc
    rcases joinUnderscore_chars tokens c hc with h' | ⟨t, ht, hct⟩
    · exact Or.inl h'
    · exact Or.inr ((htok t ht).2 c hct)
  · rw [h] at hc
    rcases joinUnderscore_chars (english_filter tokens) c hc with h' | ⟨t, ht, hct⟩
    · exact Or.inl h'
    · exact Or.inr ((htok t (english_filter_subset tokens t ht)).2 c hct)

theorem isWordChar_not_special (c : Char) (h : isWordChar c = true) :
    c ≠ '/' ∧ c ≠ '_' ∧ c ≠ ' ' := by
  refine ⟨?_, ?_, ?_⟩ <;> intro heq <;> subst heq <;> exact absurd h (by decide)

/-- Standardized text never contains a slash. -/
theorem standardize_text_slashFree (text : String)
    (tf : Option (List String → List String))
    (htf : tf = none ∨ tf = some english_filter) :
    ∀ c ∈ (standardize_text text tf).data, c ≠ '/' := by
  intro c hc
  rcases standardize_text_chars text tf htf c hc with h | ⟨h, _⟩
  · subst h; decide
  · exact (isWordChar_not_special c h).1

theorem toLower_ne_slash (c : Char) (h : c ≠ '/') : c.toLower ≠ '/' := by
  rcases toLower_cases c with ⟨heq, _⟩ | ⟨hn, h1, h2⟩
  · rw [heq]; exact h
  · intro heq
    rw [heq] at hn
    have h47 : ('/').toNat = 47 := rfl
    omega

theorem lcode_values_slashFree :
    ∀ p ∈ LCODE_ALIASES, ∀ c ∈ p.2.data, c ≠ '/' := by
  decide

/-- Canonicalizing a slash-free language code gives a slash-free code. -/
theorem canonical_lcode_slashFree (lang : String) (h : ∀ c ∈ lang.data, c ≠ '/') :
    ∀ c ∈ (canonical_lcode lang).data, c ≠ '/' := by
  have hchar : canonical_lcode lang =
      match LCODE_ALIASES.lookup (lowerStr lang) with
      | some replacement => replacement
      | none => lowerStr lang := rfl
  cases hl : LCODE_ALIASES.lookup (lowerStr lang) with
  | none =>
    rw [hchar, hl]
    intro c hc
    unfold lowerStr at hc
    rw [data_asString] at hc
    rcases List.mem_map.mp hc with ⟨d, hd, hdc⟩
    subst hdc
    exact toLower_ne_slash d (h d hd)
  | some v =>
    rw [hchar, hl]
    exact lcode_values_slashFree _ (lookup_mem hl)

/-- The character list of a concept URI. -/
theorem concept_uri_data (lang text : String) (more : List String) :
    (concept_uri lang text more).data =
      '/' :: 'c' :: '/' :: (interSlash (lang :: text :: more)).data := by
  unfold concept_uri join_uri
  rw [data_append,
    show interSlash ("c" :: lang :: text :: more)
      = "c" ++ "/" ++ interSlash (lang :: text :: more) from rfl,
    data_append, data_append]
  rfl

/-- Splitting a concept URI made of slash-free pieces recovers the pieces. -/
theorem split_uri_concept (lang text : String) (more : List String)
    (hl : ∀ c ∈ lang.data, c ≠ '/')
    (ht : ∀ c ∈ text.data, c ≠ '/')
    (hm : ∀ s ∈ more, ∀ c ∈ s.data, c ≠ '/') :
    split_uri (concept_uri lang text more) = "c" :: lang :: text :: more := by
  unfold split_uri
  rw [concept_uri_data]
  rw [show List.dropWhile (fun c => c = '/')
      ('/' :: 'c' :: '/' :: (interSlash (lang :: text :: more)).data)
      = 'c' :: '/' :: (interSlash (lang :: text :: more)).data by
    simp [List.dropWhile]]
  rw [if_neg (by simp)]
  rw [show ('c' :: '/' :: (interSlash (lang :: text :: more)).data)
      = ['c'] ++ '/' :: (interSlash (lang :: text :: more)).data from rfl]
  rw [splitSlash_append ['c'] _ (by decide)]
  rw [splitSlash_interSlash (lang :: text :: more) (by simp) ?_]
  · rw [List.map_cons, List.map_map]
    have hcomp : (List.asString ∘ String.data) = id := funext fun s => rfl
    rw [hcomp, List.map_id]
    rfl
  · intro s hs
    rcases List.mem_cons.mp hs with h | h
    · subst h; exact hl
    · rcases List.mem_cons.mp h with h' | h'
      · subst h'; exact ht
      · exact hm s h'

/-- The segments of a URI built by `standardized_concept_uri` from a
slash-free language code: the concept marker, the canonicalized language,
the standardized main text, and one standardized segment per non-`None`
qualifier, in order. -/
theorem split_uri_standardized (lang text : String) (more : List (Option String))
    (h : ∀ c ∈ lang.data, c ≠ '/') :
    split_uri (standardized_concept_uri lang text more) =
      "c" :: canonical_lcode lang
        :: standardize_text text (if lang = "en" then some english_filter else none)
        :: (more.filterMap id).map
            (fun item =>
              standardize_text item (if lang = "en" then some english_filter else none)) := by
  have htf : (if lang = "en" then some english_filter else none) = none ∨
      (if lang = "en" then some english_filter else none) = some english_filter := by
    by_cases hen : lang = "en"
    · right; rw [if_pos hen]
    · left; rw [if_neg hen]
  unfold standardized_concept_uri
  apply split_uri_concept
  · exact canonical_lcode_slashFree lang h
  · exact standardize_text_slashFree text _ htf
  · intro s hs
    rcases List.mem_map.mp hs with ⟨item, _, hitem⟩
    subst hitem
    exact standardize_text_slashFree item _ htf

/-- A URI built by `standardized_concept_uri` starts with `/c/`, never with
`/a/`. -/
theorem standardized_uri_prefixes (lang text : String) (more : List (Option String)) :
    uriStartsWith "/a/" (standardized_concept_uri lang text more) = false ∧
    uriStartsWith "/c/" (standardized_concept_uri lang text more) = true := by
  unfold standardized_concept_uri uriStartsWith
  rw [concept_uri_data]
  constructor
  · rw [show ("/a/" : String).data = ['/', 'a', '/'] from rfl]
    simp [List.isPrefixOf]
  · rw [show ("/c/" : String).data = ['/', 'c', '/'] from rfl]
    simp [List.isPrefixOf]

/-- On a URI that is concept-style and not assertion-style, the language
extractor returns the second segment. -/
theorem get_uri_language_step_c (uri : String)
    (ha : uriStartsWith "/a/" uri = false) (hc : uriStartsWith "/c/" uri = true) :
    get_uri_language uri = some ((split_uri uri).get? 1) := by
  unfold get_uri_language
  rw [get_uri_language_fuel]
  simp [ha, hc]

/-- C2 (amended: for language codes that contain no `'/'`): the language
extracted from a URI built by `standardized_concept_uri` is exactly the
canonicalized (lowercased, alias-resolved) form of the language the URI was
built with. -/
theorem claim_C2 (lang text : String) (more : List (Option String))
    (h : ∀ c ∈ lang.data, c ≠ '/') :
    get_uri_language (standardized_concept_uri lang text more)
      = some (some (canonical_lcode lang)) := by
  obtain ⟨ha, hc⟩ := standardized_uri_prefixes lang text more
  rw [get_uri_language_step_c _ ha hc]
  rw [split_uri_standardized lang text more h]
  rfl

/-- Witness for C2 at `lang = 'EN'`, `text = 'Cat'`. -/
theorem claim_C2_witness :
    get_uri_language (standardized_concept_uri "EN" "Cat" []) = some (some "en") := by
  have h := claim_C2 "EN" "Cat" [] (by decide)
  rw [h]
  decide

/-- C2 as stated is false for a "language code" containing a slash: the
slash is read as a segment separator, so only the part before it is
extracted back. -/
theorem claim_C2_counterexample :
    standardized_concept_uri "x/y" "cat" [] = "/c/x/y/cat"
    ∧ canonical_lcode "x/y" = "x/y"
    ∧ get_uri_language (standardized_concept_uri "x/y" "cat" []) = some (some "x")
    ∧ get_uri_language (standardized_concept_uri "x/y" "cat" [])
        ≠ some (some (canonical_lcode "x/y")) := by
  refine ⟨by decide, by decide, by decide, by decide⟩

/-- C9: a qualifier is omitted from the URI exactly when it is the `None`
sentinel; every other qualifier contributes one path segment in input order,
and a qualifier such as `','` whose standardization is empty shows up as an
empty segment instead of being skipped (`/c/fr/x//y`). -/
theorem claim_C9 :
    (∀ (lang text : String) (more : List (Option String)),
      (∀ c ∈ lang.data, c ≠ '/') →
      split_uri (standardized_concept_uri lang text more) =
        "c" :: canonical_lcode lang
          :: standardize_text text (if lang = "en" then some english_filter else none)
          :: (more.filterMap id).map
              (fun item =>
                standardize_text item (if lang = "en" then some english_filter else none)))
    ∧ standardized_concept_uri "fr" "x" [none, some ",", some "y"] = "/c/fr/x//y" :=
  ⟨fun lang text more h => split_uri_standardized lang text more h, by decide⟩

/-- Witness for C9: with the English filter, `None` qualifiers are dropped
and the remaining qualifiers appear in order. -/
theorem claim_C9_witness :
    split_uri (standardized_concept_uri "en" "this is a test"
        [some "n", none, some "example phrase"]) =
      ["c", "en", "this_is_test", "n", "example_phrase"] := by
  have h := claim_C9.1 "en" "this is a test" [some "n", none, some "example phrase"]
    (by decide)
  rw [h]
  decide

/-! ## Termination analysis of `get_uri_language` -/

theorem splitTopComma_ne_nil :
    ∀ (cs : List Char) (depth : Nat) (cur : List Char),
      splitTopComma cs depth cur ≠ [] := by
  intro cs
  induction cs with
  | nil => intro depth cur; simp [splitTopComma]
  | cons c cs ih =>
    intro depth cur
    rw [splitTopComma]
    by_cases h1 : c = ',' ∧ depth = 0
    · rw [if_pos h1]; simp
    · rw [if_neg h1]
      by_cases h2 : c = '['
      · rw [if_pos h2]; exact ih _ _
      · rw [if_neg h2]
        by_cases h3 : c = ']'
        · rw [if_pos h3]; exact ih _ _
        · rw [if_neg h3]; exact ih _ _

theorem splitTopComma_length :
    ∀ (cs : List Char) (depth : Nat) (cur : List Char),
      ∀ r ∈ splitTopComma cs depth cur, r.length ≤ cs.length + cur.length := by
  intro cs
  induction cs with
  | nil =>
    intro depth cur r hr
    rw [splitTopComma] at hr
    simp only [List.mem_singleton] at hr
    subst hr
    simp
  | cons c cs ih =>
    intro depth cur r hr
    rw [splitTopComma] at hr
    simp only [List.length_cons]
    by_cases h1 : c = ',' ∧ depth = 0
    · rw [if_pos h1] at hr
      rcases List.mem_cons.mp hr with h | h
      · subst h
        simp only [List.length_reverse]
        omega
      · have := ih 0 [] r h
        simp only [List.length_nil] at this
        omega
    · rw [if_neg h1] at hr
      by_cases h2 : c = '['
      · rw [if_pos h2] at hr
        have := ih _ _ r hr
        simp only [List.length_cons] at this
        omega
      · rw [if_neg h2] at hr
        by_cases h3 : c = ']'
        · rw [if_pos h3] at hr
          have := ih _ _ r hr
          simp only [List.length_cons] at this
          omega
        · rw [if_neg h3] at hr
          have := ih _ _ r hr
          simp only [List.length_cons] at this
          omega

theorem parse_possible_compound_ne_nil (op uri : String) :
    parse_possible_compound_uri op uri ≠ [] := by
  unfold parse_possible_compound_uri
  by_cases h : uriStartsWith ("/" ++ op ++ "/[") uri = true
  · rw [if_pos h]
    unfold parse_compound_args
    simp only [ne_eq, List.map_eq_nil_iff]
    exact splitTopComma_ne_nil _ _ _
  · rw [if_neg h]
    simp

/-- The first element returned by `parse_possible_compound_uri 'a'` is the
URI itself (non-compound case) or a strictly shorter string. -/
theorem headD_map_asString_length (l : List (List Char)) (hne : l ≠ []) (d : String)
    (bound : Nat) (hb : ∀ r ∈ l, r.length ≤ bound) :
    (((l.map List.asString).headD d)).data.length ≤ bound := by
  cases l with
  | nil => exact absurd rfl hne
  | cons x xs =>
    show (List.asString x).data.length ≤ bound
    rw [data_asString]
    exact hb x (List.mem_cons_self _ _)

/-- The first element returned by `parse_possible_compound_uri 'a'` is the
URI itself (non-compound case) or a strictly shorter string. -/
theorem headD_parse_cases (uri : String) :
    (parse_possible_compound_uri "a" uri).headD uri = uri ∨
    ((parse_possible_compound_uri "a" uri).headD uri).data.length < uri.data.length := by
  unfold parse_possible_compound_uri
  by_cases h : uriStartsWith ("/" ++ "a" ++ "/[") uri = true
  · rw [if_pos h]
    right
    have hpre : ("/" ++ "a" ++ "/[" : String).data <+: uri.data := by
      rw [← List.isPrefixOf_iff_prefix]
      exact h
    have hlen4 : 4 ≤ uri.data.length := by
      have := hpre.length_le
      simpa using this
    unfold parse_compound_args
    refine Nat.lt_of_le_of_lt
      (headD_map_asString_length _ (splitTopComma_ne_nil _ _ _) uri
        (uri.data.length - 4) ?_) ?_
    · intro r hr
      have hrlen := splitTopComma_length _ _ _ r hr
      by_cases hl : (uri.data.drop (("a" : String).data.length + 3)).getLast? = some ']'
      · rw [if_pos hl, List.length_dropLast, List.length_drop] at hrlen
        simp only [List.length_nil, List.length_singleton] at hrlen
        omega
      · rw [if_neg hl, List.length_drop] at hrlen
        simp only [List.length_nil, List.length_singleton] at hrlen
        omega
    · omega
  · rw [if_neg h]
    left
    rfl

/-- Adding fuel preserves a settled result. -/
theorem get_uri_language_fuel_mono :
    ∀ (f : Nat) (uri : String) (r : Option String),
      get_uri_language_fuel f uri = some r →
      get_uri_language_fuel (f + 1) uri = some r := by
  intro f
  induction f with
  | zero => intro uri r h; simp [get_uri_language_fuel] at h
  | succ f ih =>
    intro uri r h
    rw [get_uri_language_fuel] at h ⊢
    by_cases ha : uriStartsWith "/a/" uri = true
    · rw [if_pos ha] at h ⊢
      exact ih _ r h
    · rw [if_neg ha] at h ⊢
      exact h

theorem get_uri_language_fuel_mono_le :
    ∀ (f g : Nat) (uri : String) (r : Option String), f ≤ g →
      get_uri_language_fuel f uri = some r →
      get_uri_language_fuel g uri = some r := by
  intro f g
  induction g with
  | zero =>
    intro uri r hle h
    have : f = 0 := Nat.le_zero.mp hle
    subst this
    exact h
  | succ g ih =>
    intro uri r hle h
    by_cases hfg : f = g + 1
    · subst hfg; exact h
    · have : f ≤ g := by omega
      exact get_uri_language_fuel_mono g uri r (ih uri r this h)

theorem get_uri_language_fuel_step_a (f : Nat) (uri : String)
    (ha : uriStartsWith "/a/" uri = true) :
    get_uri_language_fuel (f + 1) uri =
      get_uri_language_fuel f ((parse_possible_compound_uri "a" uri).headD uri) := by
  rw [get_uri_language_fuel, if_pos ha]

/-- Once the length-bounded fuel is exhausted, no amount of fuel settles the
recursion: the Python function recurses forever on such URIs. -/
theorem get_uri_language_fuel_none_stable :
    ∀ (n : Nat) (uri : String), uri.data.length ≤ n →
      get_uri_language_fuel (uri.data.length + 1) uri = none →
      ∀ f, get_uri_language_fuel f uri = none := by
  intro n
  induction n using Nat.strong_induction_on with
  | _ n ih =>
    intro uri hlen hnone f
    by_cases ha : uriStartsWith "/a/" uri = true
    · rcases headD_parse_cases uri with hv | hv
      · induction f with
        | zero => rfl
        | succ f ihf =>
          rw [get_uri_language_fuel_step_a f uri ha, hv]
          exact ihf
      · rw [get_uri_language_fuel_step_a uri.data.length uri ha] at hnone
        have hvnone : get_uri_language_fuel
            (((parse_possible_compound_uri "a" uri).headD uri).data.length + 1)
            ((parse_possible_compound_uri "a" uri).headD uri) = none := by
          cases hopt : get_uri_language_fuel
              (((parse_possible_compound_uri "a" uri).headD uri).data.length + 1)
              ((parse_possible_compound_uri "a" uri).headD uri) with
          | none => rfl
          | some r =>
            have hup := get_uri_language_fuel_mono_le _ uri.data.length _ r
              (by omega) hopt
            rw [hup] at hnone
            exact Option.noConfusion hnone
        have hdiv := ih ((parse_possible_compound_uri "a" uri).headD uri).data.length
          (by omega) ((parse_possible_compound_uri "a" uri).headD uri)
          (Nat.le_refl _) hvnone
        cases f with
        | zero => rfl
        | succ f =>
          rw [get_uri_language_fuel_step_a f uri ha]
          exact hdiv f
    · exfalso
      rw [get_uri_language_fuel, if_neg ha] at hnone
      by_cases hc : uriStartsWith "/c/" uri = true
      · rw [if_pos hc] at hnone
        exact Option.noConfusion hnone
      · rw [if_neg hc] at hnone
        exact Option.noConfusion hnone

/-- Any fuel of at least `length + 1` computes the definitive result. -/
theorem get_uri_language_eq_fuel (uri : String) (f : Nat)
    (hf : uri.data.length + 1 ≤ f) :
    get_uri_language_fuel f uri = get_uri_language uri := by
  unfold get_uri_language
  cases h : get_uri_language_fuel (uri.data.length + 1) uri with
  | some r => exact get_uri_language_fuel_mono_le _ _ _ _ hf h
  | none =>
    exact get_uri_language_fuel_none_stable uri.data.length uri (Nat.le_refl _) h f

theorem not_a_of_c (uri : String) (hc : uriStartsWith "/c/" uri = true) :
    uriStartsWith "/a/" uri = false := by
  unfold uriStartsWith at hc ⊢
  rw [List.isPrefixOf_iff_prefix] at hc
  obtain ⟨t, ht⟩ := hc
  rw [show ("/c/" : String).data = ['/', 'c', '/'] from rfl] at ht
  rw [← ht, show ("/a/" : String).data = ['/', 'a', '/'] from rfl]
  simp [List.isPrefixOf]

/-- A URI starting with `/c/` always has at least two segments. -/
theorem split_uri_c_length (uri : String) (hc : uriStartsWith "/c/" uri = true) :
    1 < (split_uri uri).length := by
  unfold uriStartsWith at hc
  rw [List.isPrefixOf_iff_prefix] at hc
  obtain ⟨t, ht⟩ := hc
  rw [show ("/c/" : String).data = ['/', 'c', '/'] from rfl] at ht
  unfold split_uri
  rw [← ht]
  rw [show (['/', 'c', '/'] ++ t : List Char) = '/' :: 'c' :: '/' :: t from rfl]
  rw [show List.dropWhile (fun c => c = '/') ('/' :: 'c' :: '/' :: t)
      = 'c' :: '/' :: t by simp [List.dropWhile]]
  rw [if_neg (by simp)]
  rw [show ('c' :: '/' :: t : List Char) = ['c'] ++ '/' :: t from rfl]
  rw [splitSlash_append ['c'] t (by decide)]
  have hpos : 0 < (splitSlash t).length := List.length_pos.mpr (splitSlash_ne_nil t)
  simp only [List.map_cons, List.length_cons, List.length_map]
  omega

/-- C8: the language extractor dispatches on the identifier's shape: on an
`/a/` identifier it is the extractor applied to the first sub-URI of the
parsed compound; on a `/c/` identifier it is the second segment of
`split_uri`, returned with no canonicalization re-applied. -/
theorem claim_C8 (uri : String) :
    (uriStartsWith "/a/" uri = true →
      get_uri_language uri =
        get_uri_language ((parse_possible_compound_uri "a" uri).headD uri))
    ∧ (uriStartsWith "/c/" uri = true →
      ∃ s, (split_uri uri).get? 1 = some s ∧ get_uri_language uri = some (some s)) := by
  constructor
  · intro ha
    rcases headD_parse_cases uri with hv | hv
    · rw [hv]
    · show get_uri_language_fuel _ uri = _
      rw [get_uri_language_fuel_step_a _ _ ha]
      exact get_uri_language_eq_fuel _ uri.data.length (by omega)
  · intro hc
    have h2 := split_uri_c_length uri hc
    cases hs : (split_uri uri).get? 1 with
    | none =>
      rw [List.get?_eq_none] at hs
      omega
    | some s =>
      refine ⟨s, rfl, ?_⟩
      rw [get_uri_language_step_c uri (not_a_of_c uri hc) hc, hs]

/-- Witness for C8: a two-concept assertion URI defers to its first sub-URI,
and a concept URI yields its second segment. -/
theorem claim_C8_witness :
    get_uri_language "/a/[/c/en/cat/,/c/en/dog/]" = get_uri_language "/c/en/cat/"
    ∧ ∃ s, (split_uri "/c/en/cat").get? 1 = some s
        ∧ get_uri_language "/c/en/cat" = some (some s) := by
  constructor
  · have h := (claim_C8 "/a/[/c/en/cat/,/c/en/dog/]").1 (by decide)
    rw [h]
    have hfirst : (parse_possible_compound_uri "a"
        "/a/[/c/en/cat/,/c/en/dog/]").headD "/a/[/c/en/cat/,/c/en/dog/]"
        = "/c/en/cat/" := by decide
    rw [hfirst]
  · exact (claim_C8 "/c/en/cat").2 (by decide)

/-- A `get_uri_language` call that exhausts every fuel bound: the embedded
recursion of the Python source never terminates on this URI. -/
def GetUriLanguageDiverges (uri : String) : Prop :=
  ∀ fuel, get_uri_language_fuel fuel uri = none

/-- C3's counterexample: on the degenerate assertion-style input `'/a/'`
(which the claim itself lists), `get_uri_language` recurses on the same URI
forever — the parse of the non-bracketed compound returns the URI itself —
so the operation does not terminate, contradicting totality. -/
theorem claim_C3_counterexample :
    GetUriLanguageDiverges "/a/" ∧ get_uri_language "/a/" = none := by
  have hstep : ∀ f, get_uri_language_fuel (f + 1) "/a/"
      = get_uri_language_fuel f "/a/" := by
    intro f
    rw [get_uri_language_fuel_step_a f "/a/" (by decide)]
    have hself : (parse_possible_compound_uri "a" "/a/").headD "/a/" = "/a/" := by
      decide
    rw [hself]
  have hdiv : GetUriLanguageDiverges "/a/" := by
    intro fuel
    induction fuel with
    | zero => rfl
    | succ f ih => rw [hstep]; exact ih
  exact ⟨hdiv, hdiv _⟩

/-- C3 (amended: totality holds away from non-terminating `/a/` inputs): for
every string not starting with `/a/` the extractor terminates with a value;
it returns the `None` sentinel (not an error) whenever the string is neither
assertion-style nor concept-style; and on every `/c/` string the segment
access is in bounds, so no lookup error occurs. -/
theorem claim_C3 (s : String) :
    (uriStartsWith "/a/" s = false → uriStartsWith "/c/" s = false →
      get_uri_language s = some none)
    ∧ (uriStartsWith "/c/" s = true → ∃ v, get_uri_language s = some (some v))
    ∧ (uriStartsWith "/a/" s = false → ∃ r, get_uri_language s = some r) := by
  have hother : uriStartsWith "/a/" s = false → uriStartsWith "/c/" s = false →
      get_uri_language s = some none := by
    intro ha hc
    show get_uri_language_fuel _ s = _
    rw [get_uri_language_fuel]
    simp [ha, hc]
  have hcx : uriStartsWith "/c/" s = true → ∃ v, get_uri_language s = some (some v) := by
    intro hc
    have h2 := split_uri_c_length s hc
    cases hs : (split_uri s).get? 1 with
    | none =>
      rw [List.get?_eq_none] at hs
      omega
    | some v =>
      refine ⟨v, ?_⟩
      rw [get_uri_language_step_c s (not_a_of_c s hc) hc, hs]
  refine ⟨hother, hcx, ?_⟩
  intro ha
  by_cases hc : uriStartsWith "/c/" s = true
  · obtain ⟨v, hv⟩ := hcx hc
    exact ⟨some v, hv⟩
  · exact ⟨none, hother ha (Bool.of_not_eq_true hc)⟩

/-- Witness for C3 on malformed and concept-style inputs. -/
theorem claim_C3_witness :
    get_uri_language "hello" = some none
    ∧ ∃ v, get_uri_language "/c/en/x" = some (some v) :=
  ⟨(claim_C3 "hello").1 (by decide) (by decide),
   (claim_C3 "/c/en/x").2.1 (by decide)⟩

/-! ## Idempotence of text standardization -/

theorem map_eq_self_of_mem {α : Type} {l : List α} {f : α → α}
    (h : ∀ a ∈ l, f a = a) : l.map f = l := by
  induction l with
  | nil => rfl
  | cons a l ih =>
    rw [List.map_cons, h a (List.mem_cons_self _ _),
      ih (fun x hx => h x (List.mem_cons_of_mem _ hx))]

theorem splitRunsAux_run_consume (p : Char → Bool) (run : List Char) :
    ∀ (cs cur : List Char), (∀ c ∈ run, p c = true) →
      splitRunsAux p (run ++ cs) cur = splitRunsAux p cs (run.reverse ++ cur) := by
  induction run with
  | nil => intro cs cur _; simp
  | cons c run ih =>
    intro cs cur h
    rw [List.cons_append, splitRunsAux, if_pos (h c (List.mem_cons_self c run))]
    rw [ih cs (c :: cur) (fun x hx => h x (List.mem_cons_of_mem c hx))]
    rw [List.reverse_cons, List.append_assoc, List.singleton_append]

/-- Retokenizing the underscore-joined word tokens gives the tokens back. -/
theorem retokenize (ts : List String)
    (h : ∀ t ∈ ts, t.data ≠ [] ∧ ∀ c ∈ t.data, isWordChar c = true) :
    splitRunsAux isWordChar ((joinUnderscore ts).data.map uscoreSpace) []
      = ts.map String.data := by
  induction ts with
  | nil => rfl
  | cons t ts ih =>
    obtain ⟨hne, hchars⟩ := h t (List.mem_cons_self t ts)
    have hmap : t.data.map uscoreSpace = t.data :=
      map_eq_self_of_mem (fun c hc => by
        unfold uscoreSpace
        rw [if_neg (isWordChar_not_special c (hchars c hc)).2.1])
    cases ts with
    | nil =>
      show splitRunsAux isWordChar (t.data.map uscoreSpace) [] = [t.data]
      rw [hmap]
      rw [show (t.data : List Char) = t.data ++ [] from by simp]
      rw [splitRunsAux_run_consume isWordChar t.data [] [] hchars]
      rw [splitRunsAux]
      rw [if_neg (by simp [hne])]
      simp
    | cons q qs =>
      show splitRunsAux isWordChar
        (((t ++ "_" ++ joinUnderscore (q :: qs)).data.map uscoreSpace)) []
        = t.data :: (q :: qs).map String.data
      rw [data_append, data_append, List.map_append, List.map_append, hmap]
      rw [show (("_" : String).data.map uscoreSpace) = [' '] from rfl]
      rw [List.append_assoc, List.singleton_append]
      rw [splitRunsAux_run_consume isWordChar t.data _ [] hchars]
      rw [splitRunsAux]
      rw [if_neg (by decide)]
      rw [if_neg (by simp [hne])]
      rw [ih (fun u hu => h u (List.mem_cons_of_mem t hu))]
      simp

/-- C6: with no token filter, the output of `standardize_text` is already in
canonical form — every character is an underscore or a lowercase-stable word
character — and standardizing again returns it unchanged. -/
theorem claim_C6 (t : String) :
    (∀ c ∈ (standardize_text t none).data,
      c = '_' ∨ (isWordChar c = true ∧ c.toLower = c))
    ∧ standardize_text (standardize_text t none) none = standardize_text t none := by
  constructor
  · exact standardize_text_chars t none (Or.inl rfl)
  · have htok := simple_tokenize_tokens (t.data.map uscoreSpace).asString
    set ts := simple_tokenize (t.data.map uscoreSpace).asString with hts
    show joinUnderscore (simple_tokenize
        ((joinUnderscore ts).data.map uscoreSpace).asString) = joinUnderscore ts
    congr 1
    show (splitRunsAux isWordChar ((joinUnderscore ts).data.map uscoreSpace) []).map
        (fun run => (run.map Char.toLower).asString) = ts
    rw [retokenize ts (fun u hu =>
      ⟨(htok u hu).1, fun c hc => ((htok u hu).2 c hc).1⟩)]
    rw [List.map_map]
    apply map_eq_self_of_mem
    intro u hu
    show ((u.data).map Char.toLower).asString = u
    rw [map_eq_self_of_mem (fun c hc => ((htok u hu).2 c hc).2)]
    rfl

/-- Witness for C6 on the text `'Big Dog'` (standardizes to `'big_dog'`). -/
theorem claim_C6_witness :
    ('b' = '_' ∨ (isWordChar 'b' = true ∧ ('b').toLower = 'b'))
    ∧ standardize_text (standardize_text "Big Dog" none) none
        = standardize_text "Big Dog" none :=
  ⟨(claim_C6 "Big Dog").1 'b' (by decide), (claim_C6 "Big Dog").2⟩

/-! ## The disambiguation pattern of `topic_to_concept` -/

theorem mem_takeWhile_pred {p : Char → Bool} :
    ∀ (l : List Char) (c : Char), c ∈ l.takeWhile p → p c = true := by
  intro l
  induction l with
  | nil => intro c hc; simp [List.takeWhile] at hc
  | cons a l ih =>
    intro c hc
    by_cases hp : p a = true
    · rw [List.takeWhile_cons_of_pos hp] at hc
      rcases List.mem_cons.mp hc with h | h
      · subst h; exact hp
      · exact ih c h
    · rw [List.takeWhile_cons_of_neg hp] at hc
      simp at hc

theorem dropWhile_append_all {p : Char → Bool} (A rest : List Char)
    (h : ∀ c ∈ A, p c = true) : (A ++ rest).dropWhile p = rest.dropWhile p := by
  induction A with
  | nil => rfl
  | cons c A ih =>
    rw [List.cons_append, List.dropWhile_cons_of_pos (h c (List.mem_cons_self c A))]
    exact ih (fun x hx => h x (List.mem_cons_of_mem c hx))

theorem takeWhile_append_all {p : Char → Bool} (A rest : List Char)
    (h : ∀ c ∈ A, p c = true) : (A ++ rest).takeWhile p = A ++ rest.takeWhile p := by
  induction A with
  | nil => rfl
  | cons c A ih =>
    rw [List.cons_append, List.takeWhile_cons_of_pos (h c (List.mem_cons_self c A)),
      ih (fun x hx => h x (List.mem_cons_of_mem c hx))]
    rfl

theorem dropWhile_head_false {p : Char → Bool} :
    ∀ (l : List Char) (x : Char) (xs : List Char),
      l.dropWhile p = x :: xs → p x = false := by
  intro l
  induction l with
  | nil => intro x xs h; simp [List.dropWhile] at h
  | cons c cs ih =>
    intro x xs h
    by_cases hp : p c = true
    · rw [List.dropWhile_cons_of_pos hp] at h
      exact ih x xs h
    · rw [List.dropWhile_cons_of_neg hp] at h
      injection h with h1 _
      subst h1
      exact Bool.of_not_eq_true hp

theorem eq_dropLast_concat_of_getLast? {l : List Char} {a : Char}
    (h : l.getLast? = some a) : l = l.dropLast ++ [a] := by
  have hne : l ≠ [] := by
    intro heq
    subst heq
    simp at h
  have h2 := List.dropLast_concat_getLast hne
  rw [List.getLast?_eq_getLast l hne] at h
  simp only [Option.some.injEq] at h
  rw [h] at h2
  exact h2.symm

/-- Soundness of the pattern matcher: a topic of the shape
`A ++ ' (' ++ B ++ ')' ++ C` (first parenthesis after a space, non-empty
title and disambiguation) matches with groups `A` and `B`. -/
theorem matchTopic_of_decomp (A B C : List Char) (hA : A ≠ []) (hB : B ≠ [])
    (hAp : ∀ c ∈ A, c ≠ '(') (hBp : ∀ c ∈ B, c ≠ ')') :
    matchTopic (A ++ ' ' :: '(' :: (B ++ ')' :: C)) = some (A, B) := by
  have hshape : (A ++ ' ' :: '(' :: (B ++ ')' :: C))
      = (A ++ [' ']) ++ '(' :: (B ++ ')' :: C) := by simp
  have hAsp : ∀ c ∈ A ++ [' '], (fun c => decide (c ≠ '(')) c = true := by
    intro c hc
    rcases List.mem_append.mp hc with h | h
    · simp [hAp c h]
    · simp at h
      subst h
      decide
  have hdrop : (A ++ ' ' :: '(' :: (B ++ ')' :: C)).dropWhile (fun c => c ≠ '(')
      = '(' :: (B ++ ')' :: C) := by
    rw [hshape, dropWhile_append_all _ _ hAsp,
      List.dropWhile_cons_of_neg (by simp)]
  have htake : (A ++ ' ' :: '(' :: (B ++ ')' :: C)).takeWhile (fun c => c ≠ '(')
      = A ++ [' '] := by
    rw [hshape, takeWhile_append_all _ _ hAsp,
      List.takeWhile_cons_of_neg (by simp)]
    simp
  have hBp' : ∀ c ∈ B, (fun c => decide (c ≠ ')')) c = true := by
    intro c hc
    simp [hBp c hc]
  unfold matchTopic
  rw [htake, hdrop]
  rw [if_neg (by simp)]
  rw [if_pos ⟨List.getLast?_concat A, by simpa using hA⟩]
  rw [show ('(' :: (B ++ ')' :: C)).tail = B ++ ')' :: C from rfl]
  dsimp only
  rw [dropWhile_append_all _ _ hBp', List.dropWhile_cons_of_neg (by simp)]
  rw [takeWhile_append_all _ _ hBp', List.takeWhile_cons_of_neg (by simp)]
  rw [if_neg (by simp [hB])]
  rw [List.dropLast_concat]
  simp

theorem data_eq_nil_iff {s : String} : s.data = [] ↔ s = "" := by
  constructor
  · intro h
    have h2 : s.data.asString = ([] : List Char).asString := by rw [h]
    exact h2
  · intro h
    rw [h]

/-- Completeness of the pattern matcher: a match certifies the decomposed
shape of the topic. -/
theorem matchTopic_some_decomp (cs g1 g2 : List Char)
    (h : matchTopic cs = some (g1, g2)) :
    ∃ C, cs = g1 ++ ' ' :: '(' :: (g2 ++ ')' :: C)
      ∧ g1 ≠ [] ∧ g2 ≠ [] ∧ (∀ c ∈ g1, c ≠ '(') ∧ (∀ c ∈ g2, c ≠ ')') := by
  unfold matchTopic at h
  by_cases hrest : cs.dropWhile (fun c => decide (c ≠ '(')) = []
  · rw [if_pos hrest] at h
    exact absurd h (by simp)
  · rw [if_neg hrest] at h
    by_cases hcond : (cs.takeWhile (fun c => decide (c ≠ '('))).getLast? = some ' '
        ∧ (cs.takeWhile (fun c => decide (c ≠ '('))).dropLast ≠ []
    · rw [if_pos hcond] at h
      dsimp only at h
      by_cases hinner :
          ((cs.dropWhile (fun c => decide (c ≠ '('))).tail.dropWhile
            (fun c => decide (c ≠ ')'))) = []
          ∨ ((cs.dropWhile (fun c => decide (c ≠ '('))).tail.takeWhile
            (fun c => decide (c ≠ ')'))) = []
      · rw [if_pos hinner] at h
        exact absurd h (by simp)
      · rw [if_neg hinner] at h
        simp only [Option.some.injEq, Prod.mk.injEq] at h
        obtain ⟨hg1, hg2⟩ := h
        push_neg at hinner
        obtain ⟨hrest2, hg2ne⟩ := hinner
        obtain ⟨x, xs, hx⟩ := List.exists_cons_of_ne_nil hrest
        have hxp : x = '(' := by
          have := dropWhile_head_false _ _ _ hx
          simpa using this
        subst hxp
        obtain ⟨y, ys, hy⟩ := List.exists_cons_of_ne_nil hrest2
        have hyp : y = ')' := by
          have := dropWhile_head_false _ _ _ hy
          simpa using this
        subst hyp
        refine ⟨ys, ?_, ?_, ?_, ?_, ?_⟩
        · have hcs : cs = cs.takeWhile (fun c => decide (c ≠ '('))
              ++ cs.dropWhile (fun c => decide (c ≠ '(')) :=
            (List.takeWhile_append_dropWhile _ _).symm
          have hpre : cs.takeWhile (fun c => decide (c ≠ '('))
              = g1 ++ [' '] := by
            have := eq_dropLast_concat_of_getLast? hcond.1
            rw [hg1] at this
            exact this
          have hafter : (cs.dropWhile (fun c => decide (c ≠ '('))).tail
              = g2 ++ ')' :: ys := by
            have h3 : (cs.dropWhile (fun c => decide (c ≠ '('))).tail
                = ((cs.dropWhile (fun c => decide (c ≠ '('))).tail.takeWhile
                    (fun c => decide (c ≠ ')')))
                  ++ ((cs.dropWhile (fun c => decide (c ≠ '('))).tail.dropWhile
                    (fun c => decide (c ≠ ')'))) :=
              (List.takeWhile_append_dropWhile _ _).symm
            rw [hg2, hy] at h3
            exact h3
          rw [hx] at hafter
          have hxs : xs = g2 ++ ')' :: ys := hafter
          rw [hcs, hpre, hx, hxs]
          simp
        · rw [← hg1]; exact hcond.2
        · rw [← hg2]; exact hg2ne
        · intro c hc
          rw [← hg1] at hc
          have hmem := List.dropLast_subset _ hc
          have := mem_takeWhile_pred _ _ hmem
          simpa using this
        · intro c hc
          rw [← hg2] at hc
          have := mem_takeWhile_pred _ _ hc
          simpa using this
    · rw [if_neg hcond] at h
      exact absurd h (by simp)

theorem decomp_data (A B C : String) :
    (A ++ " (" ++ B ++ ")" ++ C).data
      = A.data ++ ' ' :: '(' :: (B.data ++ ')' :: C.data) := by
  rw [data_append, data_append, data_append, data_append]
  rw [show (" (" : String).data = [' ', '('] from rfl,
    show (")" : String).data = [')'] from rfl]
  simp

/-- C5: `topic_to_concept` first replaces underscores by spaces; when the
result decomposes as `title ++ ' (' ++ disambiguation ++ ')' ++ trailing`
(title non-empty and parenthesis-free, disambiguation non-empty and free of
`')'`), the result is the concept URI of the title qualified by `n`, `wp`
and the disambiguation — trailing characters are ignored; otherwise the
whole (replaced) topic is the main text with no qualifiers. -/
theorem claim_C5 (lang topic : String) :
    (∀ A B C : String,
      topic.data.map uscoreSpace = (A ++ " (" ++ B ++ ")" ++ C).data →
      A ≠ "" → B ≠ "" → (∀ c ∈ A.data, c ≠ '(') → (∀ c ∈ B.data, c ≠ ')') →
      topic_to_concept lang topic
        = standardized_concept_uri lang A [some "n", some "wp", some B])
    ∧ ((¬ ∃ A B C : String,
          topic.data.map uscoreSpace = (A ++ " (" ++ B ++ ")" ++ C).data
          ∧ A ≠ "" ∧ B ≠ "" ∧ (∀ c ∈ A.data, c ≠ '(') ∧ (∀ c ∈ B.data, c ≠ ')'))
        → topic_to_concept lang topic
          = standardized_concept_uri lang (topic.data.map uscoreSpace).asString []) := by
  constructor
  · intro A B C hdec hA hB hAp hBp
    unfold topic_to_concept
    dsimp only
    rw [hdec, decomp_data]
    rw [matchTopic_of_decomp A.data B.data C.data
      (fun h => hA (data_eq_nil_iff.mp h)) (fun h => hB (data_eq_nil_iff.mp h)) hAp hBp]
    rfl
  · intro hno
    unfold topic_to_concept
    dsimp only
    cases hm : matchTopic (topic.data.map uscoreSpace) with
    | none => rfl
    | some pair =>
      obtain ⟨g1, g2⟩ := pair
      exfalso
      obtain ⟨C, hcs, hg1, hg2, hg1p, hg2p⟩ := matchTopic_some_decomp _ _ _ hm
      apply hno
      refine ⟨g1.asString, g2.asString, C.asString, ?_, ?_, ?_, ?_, ?_⟩
      · rw [decomp_data]
        exact hcs
      · intro h
        exact hg1 (congrArg String.data h)
      · intro h
        exact hg2 (congrArg String.data h)
      · exact hg1p
      · exact hg2p

/-- Witness for C5 on the documented example. -/
theorem claim_C5_witness :
    topic_to_concept "en" "Township (United States)"
      = standardized_concept_uri "en" "Township" [some "n", some "wp", some "United States"]
    ∧ topic_to_concept "en" "Township (United States)"
      = "/c/en/township/n/wp/united_states" := by
  have h := (claim_C5 "en" "Township (United States)").1 "Township" "United States" ""
    (by decide) (by decide) (by decide) (by decide) (by decide)
  exact ⟨h, by rw [h]; decide⟩
